import Mathlib

/-!
# Verification of the NeoRL dynamics-pretraining core

Shallow embedding of `src/benchmark/pretrain_dynamics.py` and
`src/porl/__init__.py`, together with theorems checking the repository's
specification against the code.

Conventions of the embedding:
* Python floats are modelled as exact rationals (`ℚ`); `float('inf')` is the
  top element of `WithTop ℚ`.
* `np.random` / `torch` randomness is passed in explicitly as oracle data
  (an entropy stream, a split permutation, per-epoch evaluation losses).
* Python's stable `sorted` is modelled by `List.insertionSort`, which is a
  stable sort.
* Fallible Python code (index errors, unbound locals) returns `Option` /
  an explicit error-carrying result type.
-/

namespace NeoRL

/-! ## Embedding of `src/porl/__init__.py` -/

/-- Outcome of running a Python function body: either a returned value or an
uncaught exception (`UnboundLocalError` carrying the offending name, or a
failed `assert`). -/
inductive PyResult (α : Type) where
  | ok : α → PyResult α
  | unboundLocalError : String → PyResult α
  | assertionError : PyResult α
deriving DecidableEq, Repr

/-- The environment dictionaries and constructors that `porl.make` consults
(`ib_envs`, `citylearn_envs`, `finance_envs`, `mujoco.make_env`), abstracted
over the type `ε` of environment objects.  A dictionary is a partial map whose
domain is its key set. -/
structure EnvTables (ε : Type) where
  ib_envs : String → Option ε
  citylearn_envs : String → Option ε
  finance_envs : String → Option ε
  mujoco_make : String → ε

/-- Python's `str.startswith`, modelled on the underlying character lists
(so that it evaluates inside the kernel). -/
def pyStartsWith (s p : String) : Bool := p.data.isPrefixOf s.data

/-- Embedding of `porl.make` (src/porl/__init__.py, lines 4-34).

The `if True:` wrapper always takes its first branch, so only that branch is
modelled.  The `'traffic'` branch has body `pass`, so the local `env` is never
assigned and the final `return env` raises `UnboundLocalError` for `env`.
In the offline-benchmark branch (lines 23-25) the body imports `d4rl` but then
evaluates `mujoco.make_env(task)`; `mujoco` is a function-local name that this
branch never assigns, so that branch raises `UnboundLocalError` for `mujoco`.
The `assert task in ..._envs.keys()` statements raise `AssertionError` when the
key is absent. -/
def make {ε : Type} (T : EnvTables ε) (task : String) : PyResult (Option ε) :=
  if pyStartsWith task "ib" then
    match T.ib_envs task with
    | some e => .ok (some e)
    | none => .assertionError
  else if task = "traffic" then
    .unboundLocalError "env"
  else if task = "citylearn" then
    match T.citylearn_envs task with
    | some e => .ok (some e)
    | none => .assertionError
  else if task = "finance" then
    match T.finance_envs task with
    | some e => .ok (some e)
    | none => .assertionError
  else if task ∈ (["HalfCheetah-v3", "Walker2d-v3", "Hopper-v3"] : List String) then
    .ok (some (T.mujoco_make task))
  else if task ∈ (["halfcheetah-meidum-v0", "hopper-medium-v0",
                   "walker2d-medium-v0"] : List String) then
    .unboundLocalError "mujoco"
  else
    .ok none

/-- A concrete instance of the environment tables, used to evaluate `make` on
concrete inputs (environment objects are numeric handles). -/
def sampleTables : EnvTables Nat where
  ib_envs := fun t => if t = "ib" then some 0 else none
  citylearn_envs := fun t => if t = "citylearn" then some 1 else none
  finance_envs := fun t => if t = "finance" then some 2 else none
  mujoco_make := fun _ => 3

/-! ## Embedding of `_select_best_indexes`
(src/benchmark/pretrain_dynamics.py, lines 14-18)

Python's `sorted(pairs, key=lambda x: x[0])` is a stable sort by the first
component; it is modelled by `List.insertionSort` (stable) with the
first-component order `leFst`.  The list comprehension
`[pairs[i][1] for i in range(n)]` raises `IndexError` when
`n > len(pairs)`; the embedding returns `Option`. -/

/-- Comparison used by the source's `sorted(pairs, key=lambda x: x[0])`:
order on the first (loss) component only. -/
def leFst {α : Type} [LinearOrder α] (a b : α × Nat) : Prop := a.1 ≤ b.1

/-- The order the specification describes: ascending by loss, ties broken by
the original member index (lexicographic on `(loss, index)`). -/
def lexLoss {α : Type} [LinearOrder α] (a b : α × Nat) : Prop :=
  a.1 < b.1 ∨ (a.1 = b.1 ∧ a.2 ≤ b.2)

instance {α : Type} [LinearOrder α] : DecidableRel (leFst (α := α)) :=
  fun a b => inferInstanceAs (Decidable (a.1 ≤ b.1))

instance {α : Type} [LinearOrder α] : IsTotal (α × Nat) leFst :=
  ⟨fun a b => le_total a.1 b.1⟩

instance {α : Type} [LinearOrder α] : IsTrans (α × Nat) leFst :=
  ⟨fun _ _ _ h1 h2 => le_trans h1 h2⟩

instance {α : Type} [LinearOrder α] : DecidableRel (lexLoss (α := α)) :=
  fun a b => inferInstanceAs (Decidable (a.1 < b.1 ∨ (a.1 = b.1 ∧ a.2 ≤ b.2)))

instance {α : Type} [LinearOrder α] : IsTotal (α × Nat) lexLoss := by
  constructor
  intro a b
  rcases lt_trichotomy a.1 b.1 with h | h | h
  · exact Or.inl (Or.inl h)
  · rcases Nat.le_total a.2 b.2 with h2 | h2
    · exact Or.inl (Or.inr ⟨h, h2⟩)
    · exact Or.inr (Or.inr ⟨h.symm, h2⟩)
  · exact Or.inr (Or.inl h)

instance {α : Type} [LinearOrder α] : IsTrans (α × Nat) lexLoss := by
  constructor
  rintro a b c (h1 | ⟨h1, h1'⟩) (h2 | ⟨h2, h2'⟩)
  · exact Or.inl (h1.trans h2)
  · exact Or.inl (h2 ▸ h1)
  · exact Or.inl (h1 ▸ h2)
  · exact Or.inr ⟨h1.trans h2, h1'.trans h2'⟩

instance {α : Type} [LinearOrder α] : IsAntisymm (α × Nat) lexLoss := by
  constructor
  rintro ⟨a1, a2⟩ ⟨b1, b2⟩ (h1 | ⟨h1, h1'⟩) (h2 | ⟨h2, h2'⟩) <;>
    simp_all <;> first
      | exact absurd (h1.trans h2) (lt_irrefl _)
      | omega

/-- Embedding of `_select_best_indexes(metrics, n)`
(src/benchmark/pretrain_dynamics.py, lines 14-18). -/
def _select_best_indexes {α : Type} [LinearOrder α] (metrics : List α) (n : Nat) :
    Option (List Nat) :=
  let pairs := metrics.zip (List.range metrics.length)
  let sortedPairs := List.insertionSort leFst pairs
  if n ≤ sortedPairs.length then some ((sortedPairs.take n).map Prod.snd) else none

/-- The selection rule as the specification words it: pair each loss with its
member index, sort ascending by loss with ties broken by the original member
index, take the first `n` pairs, and return their indices. -/
def specSelectLowest {α : Type} [LinearOrder α] (metrics : List α) (n : Nat) : List Nat :=
  ((List.insertionSort lexLoss (metrics.zip (List.range metrics.length))).take n).map Prod.snd

/-- In a list of pairs whose second components are pairwise increasing, an
element with smaller second component occurs earlier, as a two-element
sublist. -/
theorem pair_sublist_of_snd_lt {α : Type} {l : List (α × Nat)}
    (hsnd : l.Pairwise (fun a b => a.2 < b.2)) {x y : α × Nat}
    (hx : x ∈ l) (hy : y ∈ l) (hxy : x.2 < y.2) : List.Sublist [x, y] l := by
  obtain ⟨p, hp, hxp⟩ := List.getElem_of_mem hx
  obtain ⟨q, hq, hyq⟩ := List.getElem_of_mem hy
  rw [List.pairwise_iff_getElem] at hsnd
  have hpq : p < q := by
    rcases Nat.lt_trichotomy p q with h | h | h
    · exact h
    · exfalso
      subst h
      rw [hxp] at hyq
      rw [hyq] at hxy
      exact lt_irrefl _ hxy
    · exfalso
      have := hsnd q p hq hp h
      rw [hxp, hyq] at this
      omega
  have := @List.map_getElem_sublist _ l [⟨p, hp⟩, ⟨q, hq⟩] (by simp [hpq])
  simpa [hxp, hyq] using this

/-- The stable sort by loss of a list of pairs with increasing second
components is sorted for the full lexicographic order. -/
theorem insertionSort_fst_sorted_lex {α : Type} [LinearOrder α] {l : List (α × Nat)}
    (hsnd : l.Pairwise (fun a b => a.2 < b.2)) :
    List.Sorted lexLoss (List.insertionSort leFst l) := by
  have hnd : l.Nodup := hsnd.imp (fun h => by
    intro he
    rw [he] at h
    exact lt_irrefl _ h)
  have hperm := List.perm_insertionSort (leFst (α := α)) l
  have hs : (List.insertionSort leFst l).Pairwise (leFst (α := α)) :=
    List.sorted_insertionSort leFst l
  have hndout : (List.insertionSort leFst l).Nodup := hperm.nodup_iff.mpr hnd
  unfold List.Sorted
  rw [List.pairwise_iff_getElem] at hs ⊢
  intro i j hi hj hij
  have hle := hs i j hi hj hij
  simp only [leFst] at hle
  rcases lt_or_eq_of_le hle with hlt | heq
  · exact Or.inl hlt
  · refine Or.inr ⟨heq, ?_⟩
    by_contra hcon
    push_neg at hcon
    have hmemj : (List.insertionSort leFst l)[j] ∈ l :=
      hperm.subset (List.getElem_mem hj)
    have hmemi : (List.insertionSort leFst l)[i] ∈ l :=
      hperm.subset (List.getElem_mem hi)
    have hsub : List.Sublist
        [(List.insertionSort leFst l)[j], (List.insertionSort leFst l)[i]] l :=
      pair_sublist_of_snd_lt hsnd hmemj hmemi hcon
    have hsort : List.Sublist
        [(List.insertionSort leFst l)[j], (List.insertionSort leFst l)[i]]
        (List.insertionSort leFst l) :=
      List.pair_sublist_insertionSort (show leFst _ _ from le_of_eq heq.symm) hsub
    obtain ⟨is, hmap, hpw⟩ := List.sublist_eq_map_getElem hsort
    have hlen2 : is.length = 2 := by
      have hc := congrArg List.length hmap
      simpa using hc.symm
    rcases is with _ | ⟨a, _ | ⟨b, _ | ⟨c, tl⟩⟩⟩
    · simp at hlen2
    · simp at hlen2
    · simp only [List.map_cons, List.map_nil, List.cons.injEq, and_true] at hmap
      obtain ⟨h1, h2⟩ := hmap
      have ha : j = (a : Nat) := hndout.getElem_inj_iff.mp h1
      have hb : i = (b : Nat) := hndout.getElem_inj_iff.mp h2
      have hab : (a : Nat) < (b : Nat) := by
        have h3 := List.rel_of_pairwise_cons hpw (List.mem_singleton.mpr rfl)
        exact h3
      omega
    · simp at hlen2

/-- With pairwise increasing second components, the stable sort by the first
component agrees with the sort by the lexicographic order. -/
theorem insertionSort_fst_eq_lex {α : Type} [LinearOrder α] (l : List (α × Nat))
    (hsnd : l.Pairwise (fun a b => a.2 < b.2)) :
    List.insertionSort leFst l = List.insertionSort lexLoss l :=
  List.eq_of_perm_of_sorted
    ((List.perm_insertionSort leFst l).trans (List.perm_insertionSort lexLoss l).symm)
    (insertionSort_fst_sorted_lex hsnd) (List.sorted_insertionSort lexLoss l)

/-- The pairs built on line 15 have pairwise increasing indices. -/
theorem zip_range_snd_lt {α : Type} (metrics : List α) :
    (metrics.zip (List.range metrics.length)).Pairwise (fun a b => a.2 < b.2) := by
  rw [List.pairwise_iff_getElem]
  intro i j hi hj hij
  simp only [List.getElem_zip, List.getElem_range]
  exact hij

/-- C1: whenever `_select_best_indexes` returns a subset, that subset has size
exactly `n` and consists of the indices of the `n` lowest-loss members, ordered
by a stable ascending sort on loss with ties broken by the original member
index (take the prefix of length `n`). -/
theorem select_best_indexes_stable {α : Type} [LinearOrder α] (metrics : List α)
    (n : Nat) (sel : List Nat)
    (h : _select_best_indexes metrics n = some sel) :
    sel.length = n ∧ sel = specSelectLowest metrics n := by
  simp only [_select_best_indexes] at h
  by_cases hn : n ≤ (List.insertionSort leFst (metrics.zip (List.range metrics.length))).length
  · rw [if_pos hn] at h
    obtain rfl : ((List.insertionSort leFst
        (metrics.zip (List.range metrics.length))).take n).map Prod.snd = sel :=
      Option.some.inj h
    constructor
    · rw [List.length_map, List.length_take]
      omega
    · unfold specSelectLowest
      rw [insertionSort_fst_eq_lex _ (zip_range_snd_lt metrics)]
  · rw [if_neg hn] at h
    exact Option.noConfusion h

theorem select_best_indexes_stable_witness :
    ([1, 3, 2] : List Nat).length = 3 ∧
      ([1, 3, 2] : List Nat) = specSelectLowest ([3, 1, 2, 1] : List ℕ) 3 :=
  select_best_indexes_stable ([3, 1, 2, 1] : List ℕ) 3 [1, 3, 2] (by decide)

/-- C10: for `n ≤ len(metrics)`, `_select_best_indexes` returns exactly `n`
pairwise-distinct valid indices into `metrics`; for `n > len(metrics)` it fails
(out-of-range access, modelled as `none`) rather than returning a shorter
list. -/
theorem select_best_indexes_safety {α : Type} [LinearOrder α] (metrics : List α) (n : Nat) :
    (n ≤ metrics.length →
      ∃ sel, _select_best_indexes metrics n = some sel ∧ sel.length = n ∧
        sel.Nodup ∧ ∀ i ∈ sel, i < metrics.length) ∧
    (metrics.length < n → _select_best_indexes metrics n = none) := by
  have hlen : (List.insertionSort leFst (metrics.zip (List.range metrics.length))).length
      = metrics.length := by
    simp [List.length_insertionSort, List.length_zip]
  have hmapsnd : List.Perm
      ((List.insertionSort leFst (metrics.zip (List.range metrics.length))).map Prod.snd)
      (List.range metrics.length) := by
    have h1 := (List.perm_insertionSort (leFst (α := α))
      (metrics.zip (List.range metrics.length))).map Prod.snd
    rw [List.map_snd_zip] at h1
    · exact h1
    · simp
  constructor
  · intro hn
    refine ⟨((List.insertionSort leFst
        (metrics.zip (List.range metrics.length))).take n).map Prod.snd, ?_, ?_, ?_, ?_⟩
    · simp only [_select_best_indexes]
      rw [if_pos (by omega)]
    · rw [List.length_map, List.length_take]
      omega
    · rw [List.map_take]
      exact (List.take_sublist n _).nodup
        (hmapsnd.nodup_iff.mpr (List.nodup_range _))
    · intro i hi
      rw [List.map_take] at hi
      have := hmapsnd.mem_iff.mp (List.mem_of_mem_take hi)
      exact List.mem_range.mp this
  · intro hlt
    simp only [_select_best_indexes]
    rw [if_neg (by omega)]

theorem select_best_indexes_safety_witness :
    ((2 ≤ ([5, 5] : List ℕ).length →
        ∃ sel, _select_best_indexes ([5, 5] : List ℕ) 2 = some sel ∧ sel.length = 2 ∧
          sel.Nodup ∧ ∀ i ∈ sel, i < ([5, 5] : List ℕ).length) ∧
      (([5, 5] : List ℕ).length < 2 → _select_best_indexes ([5, 5] : List ℕ) 2 = none)) ∧
    ((3 ≤ ([5, 5] : List ℕ).length →
        ∃ sel, _select_best_indexes ([5, 5] : List ℕ) 3 = some sel ∧ sel.length = 3 ∧
          sel.Nodup ∧ ∀ i ∈ sel, i < ([5, 5] : List ℕ).length) ∧
      (([5, 5] : List ℕ).length < 3 → _select_best_indexes ([5, 5] : List ℕ) 3 = none)) :=
  ⟨select_best_indexes_safety ([5, 5] : List ℕ) 2,
   select_best_indexes_safety ([5, 5] : List ℕ) 3⟩

/-- C8: a task-name string not belonging to any recognized task family makes
`make` return `None` (a distinguishable "not found" outcome: `ok none`), with
no crash and no undefined-variable reference on that failure path. -/
theorem make_unknown_returns_none {ε : Type} (T : EnvTables ε) (task : String)
    (h1 : ¬ pyStartsWith task "ib") (h2 : task ≠ "traffic") (h3 : task ≠ "citylearn")
    (h4 : task ≠ "finance")
    (h5 : task ∉ (["HalfCheetah-v3", "Walker2d-v3", "Hopper-v3"] : List String))
    (h6 : task ∉ (["halfcheetah-meidum-v0", "hopper-medium-v0",
                   "walker2d-medium-v0"] : List String)) :
    make T task = .ok none := by
  unfold make
  rw [if_neg (by simpa using h1), if_neg h2, if_neg h3, if_neg h4, if_neg h5, if_neg h6]

theorem make_unknown_returns_none_witness :
    make sampleTables "an-unknown-task" = .ok none :=
  make_unknown_returns_none sampleTables "an-unknown-task" (by decide) (by decide)
    (by decide) (by decide) (by decide) (by decide)

/-- C9: on input `"traffic"`, `make` matches the branch whose body is `pass`,
so the local `env` is never assigned and the function fails with an
unbound-variable error at its `return env` statement instead of returning an
environment or `None`. -/
theorem make_traffic_unbound {ε : Type} (T : EnvTables ε) :
    make T "traffic" = .unboundLocalError "env" := by
  unfold make
  rw [if_neg (by decide), if_pos rfl]

/-! ## Embedding of the `training_dynamics` epoch loop
(src/benchmark/pretrain_dynamics.py, lines 82-109)

The gradient steps of lines 89-93 mutate only the network, which the
embedding abstracts: the per-epoch validation losses returned by
`_eval_transition` on line 94 are supplied by an epoch-indexed oracle. -/

/-- A recorded validation loss: a rational, or `float('inf')` (`⊤`). -/
abbrev Loss := WithTop ℚ

/-- Line 82: `val_losses = [float('inf') for i in range(ensemble_size)]`. -/
def initLosses (ensemble_size : Nat) : List Loss := List.replicate ensemble_size ⊤

/-- Lines 96-99: the member indices whose new validation loss strictly
improves on the recorded best.  The Python `zip` iterates up to the shorter
of the two loss lists. -/
def improvedIndexes (old : List Loss) (new : List ℚ) : List Nat :=
  (List.range (min old.length new.length)).filter fun i =>
    match new[i]?, old[i]? with
    | some nl, some ol => decide ((nl : Loss) < ol)
    | _, _ => false

/-- Lines 96-100: `val_losses[i] = new_loss` exactly at improving indices;
every other entry is left unchanged. -/
def updateValLosses (old : List Loss) (new : List ℚ) : List Loss :=
  old.enum.map fun p =>
    match (new[p.1]? : Option ℚ) with
    | some nl => if (nl : Loss) < p.2 then (nl : Loss) else p.2
    | none => p.2

/-- State of the loop of lines 84-109: recorded best losses, the stagnation
counter `cnt`, and the epoch number. -/
structure LoopState where
  val_losses : List Loss
  cnt : Nat
  epoch : Nat
deriving DecidableEq, Repr

/-- The state just before the `while` loop (lines 82-85). -/
def initState (ensemble_size : Nat) : LoopState :=
  { val_losses := initLosses ensemble_size, cnt := 0, epoch := 0 }

/-- One iteration of the `while True` body (lines 87-106): bump the epoch,
obtain the epoch's validation losses from the oracle, record improvements,
and reset or increment the stagnation counter. -/
def loopStep (evalLosses : Nat → List ℚ) (s : LoopState) : LoopState :=
  let new := evalLosses (s.epoch + 1)
  { val_losses := updateValLosses s.val_losses new
    cnt := if 0 < (improvedIndexes s.val_losses new).length then 0 else s.cnt + 1
    epoch := s.epoch + 1 }

/-- The `while True: ... if cnt >= 5: break` loop (lines 87-109) run with at
most `fuel` iterations: `some s` is normal termination in state `s`, `none`
means the loop is still running after `fuel` iterations. -/
def runLoop (evalLosses : Nat → List ℚ) : Nat → LoopState → Option LoopState
  | 0, _ => none
  | fuel + 1, s =>
    let s' := loopStep evalLosses s
    if 5 ≤ s'.cnt then some s' else runLoop evalLosses fuel s'

theorem runLoop_zero (f : Nat → List ℚ) (s : LoopState) : runLoop f 0 s = none := rfl

theorem runLoop_succ (f : Nat → List ℚ) (fuel : Nat) (s : LoopState) :
    runLoop f (fuel + 1) s =
      if 5 ≤ (loopStep f s).cnt then some (loopStep f s)
      else runLoop f fuel (loopStep f s) := rfl

/-- If the loop terminates from a state whose counter is below 5, the final
counter is exactly 5. -/
theorem runLoop_final_cnt (f : Nat → List ℚ) :
    ∀ (fuel : Nat) (s s' : LoopState), s.cnt < 5 →
      runLoop f fuel s = some s' → s'.cnt = 5 := by
  intro fuel
  induction fuel with
  | zero => intro s s' _ h; exact Option.noConfusion h
  | succ n ih =>
    intro s s' hcnt h
    rw [runLoop_succ] at h
    by_cases hc : 5 ≤ (loopStep f s).cnt
    · rw [if_pos hc] at h
      obtain rfl := Option.some.inj h
      by_cases him : 0 < (improvedIndexes s.val_losses (f (s.epoch + 1))).length
      · simp [loopStep, him] at hc
      · simp only [loopStep, if_neg him] at hc ⊢
        omega
    · rw [if_neg hc] at h
      exact ih _ _ (by omega) h

/-- Reaching a terminated state consumes at least `5 - cnt` iterations. -/
theorem runLoop_some_fuel (f : Nat → List ℚ) :
    ∀ (fuel : Nat) (s s' : LoopState),
      runLoop f fuel s = some s' → 5 ≤ s.cnt + fuel := by
  intro fuel
  induction fuel with
  | zero => intro s s' h; exact Option.noConfusion h
  | succ n ih =>
    intro s s' h
    have hle : (loopStep f s).cnt ≤ s.cnt + 1 := by
      simp only [loopStep]
      split <;> omega
    rw [runLoop_succ] at h
    by_cases hc : 5 ≤ (loopStep f s).cnt
    · omega
    · rw [if_neg hc] at h
      have := ih _ _ h
      omega

/-- An epoch with no improving member leaves the recorded losses unchanged. -/
theorem updateValLosses_of_no_improve (old : List Loss) (new : List ℚ)
    (h : improvedIndexes old new = []) : updateValLosses old new = old := by
  apply List.ext_getElem
  · simp [updateValLosses]
  · intro i h1 h2
    simp only [updateValLosses, List.getElem_map, List.getElem_enum]
    cases hnl : new[i]? with
    | none => rfl
    | some nl =>
      have hnlt : ¬ ((nl : Loss) < old[i]) := by
        intro hlt
        have hi_in : i ∈ improvedIndexes old new := by
          unfold improvedIndexes
          rw [List.mem_filter]
          refine ⟨?_, ?_⟩
          · rw [List.mem_range]
            have hni : i < new.length := by
              obtain ⟨hh, -⟩ := List.getElem?_eq_some_iff.mp hnl
              exact hh
            omega
          · rw [hnl, List.getElem?_eq_getElem h2]
            simpa using hlt
        rw [h] at hi_in
        exact List.not_mem_nil _ hi_in
      simp [hnlt]

/-- Starting below the stop threshold with only stagnant epochs ahead, the
loop runs exactly `5 - cnt` further iterations and stops with counter 5. -/
theorem runLoop_stagnant (f : Nat → List ℚ) (v : List Loss) (ep0 : Nat)
    (hstag : ∀ e, ep0 < e → improvedIndexes v (f e) = []) :
    ∀ (fuel c ep : Nat), ep0 ≤ ep → c < 5 →
      runLoop f fuel ⟨v, c, ep⟩ =
        if 5 - c ≤ fuel then some ⟨v, 5, ep + (5 - c)⟩ else none := by
  intro fuel
  induction fuel with
  | zero =>
    intro c ep _ hc
    rw [runLoop_zero, if_neg (by omega)]
  | succ n ih =>
    intro c ep hep hc
    have hno : improvedIndexes v (f (ep + 1)) = [] := hstag _ (by omega)
    have hupd : updateValLosses v (f (ep + 1)) = v :=
      updateValLosses_of_no_improve _ _ hno
    have hstep : loopStep f ⟨v, c, ep⟩ = ⟨v, c + 1, ep + 1⟩ := by
      simp [loopStep, hno, hupd]
    rw [runLoop_succ, hstep]
    by_cases h5 : 5 ≤ c + 1
    · rw [if_pos h5, if_pos (by omega)]
      have hc4 : c = 4 := by omega
      subst hc4
      rfl
    · rw [if_neg h5, ih (c + 1) (ep + 1) (by omega) (by omega)]
      by_cases h2 : 5 - (c + 1) ≤ n
      · rw [if_pos h2, if_pos (by omega)]
        have he : (ep + 1) + (5 - (c + 1)) = ep + (5 - c) := by omega
        rw [he]
      · rw [if_neg h2, if_neg (by omega)]

/-- Against the `+infinity` initial bests, every member with an evaluated
loss improves. -/
theorem improvedIndexes_init (k : Nat) (new : List ℚ) :
    improvedIndexes (initLosses k) new = List.range (min k new.length) := by
  unfold improvedIndexes initLosses
  rw [List.length_replicate]
  apply List.filter_eq_self.mpr
  intro i hi
  rw [List.mem_range] at hi
  rw [List.getElem?_eq_getElem (l := new) (by omega),
    List.getElem?_eq_getElem (l := List.replicate k (⊤ : Loss)) (by simpa using by omega)]
  simp

/-- C3: the epoch loop terminates exactly when the stagnation counter reaches
5 (any terminating run ends with counter exactly 5); and in a run where every
member improves at epoch 1 and no member ever improves afterwards, the loop
executes exactly 6 epochs: it terminates with 6 iterations of fuel and is
still running with 5. -/
theorem loop_six_epochs (f : Nat → List ℚ) (k : Nat)
    (hk : 0 < k) (hlen : (f 1).length = k)
    (hstag : ∀ e, 2 ≤ e →
      improvedIndexes (updateValLosses (initLosses k) (f 1)) (f e) = []) :
    (∀ (g : Nat → List ℚ) (fuel : Nat) (s' : LoopState),
        runLoop g fuel (initState k) = some s' → s'.cnt = 5) ∧
    runLoop f 6 (initState k) =
      some ⟨updateValLosses (initLosses k) (f 1), 5, 6⟩ ∧
    runLoop f 5 (initState k) = none := by
  have hstep1 : loopStep f (initState k) =
      ⟨updateValLosses (initLosses k) (f 1), 0, 1⟩ := by
    simp [loopStep, initState, improvedIndexes_init, hlen, hk]
  have hstag' : ∀ e, 1 < e →
      improvedIndexes (updateValLosses (initLosses k) (f 1)) (f e) = [] :=
    fun e he => hstag e he
  refine ⟨fun g fuel s' h =>
    runLoop_final_cnt g fuel _ s' (by simp [initState]) h, ?_, ?_⟩
  · rw [show (6 : Nat) = 5 + 1 from rfl, runLoop_succ, hstep1,
      if_neg (by simp),
      runLoop_stagnant f _ 1 hstag' 5 0 1 (le_refl 1) (by omega),
      if_pos (by omega)]
  · rw [show (5 : Nat) = 4 + 1 from rfl, runLoop_succ, hstep1,
      if_neg (by simp),
      runLoop_stagnant f _ 1 hstag' 4 0 1 (le_refl 1) (by omega),
      if_neg (by omega)]

/-- A concrete loss oracle that improves every member at epoch 1 and never
improves any member again. -/
def stagnantLosses : Nat → List ℚ := fun e => if e = 1 then [1, 1] else [5, 5]

theorem loop_six_epochs_witness :
    (∀ (g : Nat → List ℚ) (fuel : Nat) (s' : LoopState),
        runLoop g fuel (initState 2) = some s' → s'.cnt = 5) ∧
    runLoop stagnantLosses 6 (initState 2) =
      some ⟨updateValLosses (initLosses 2) (stagnantLosses 1), 5, 6⟩ ∧
    runLoop stagnantLosses 5 (initState 2) = none :=
  loop_six_epochs stagnantLosses 2 (by decide) (by decide)
    (fun e he => by
      have h5 : stagnantLosses e = [5, 5] := by
        unfold stagnantLosses
        rw [if_neg (by omega)]
      rw [h5]
      decide)

/-- C5: with the recorded bests initialized to `+infinity`, every member
strictly improves at epoch 1, and consequently no run can terminate within
its first 5 iterations (minimum run length: 1 improving epoch plus 5
stagnant epochs). -/
theorem epoch_one_improves_all (k : Nat) (new : List ℚ) (f : Nat → List ℚ)
    (hk : 0 < k) (hlen : new.length = k) (hf : 0 < (f 1).length) :
    improvedIndexes (initLosses k) new = List.range k ∧
    ∀ fuel, fuel ≤ 5 → runLoop f fuel (initState k) = none := by
  constructor
  · rw [improvedIndexes_init, hlen, Nat.min_self]
  · intro fuel hfuel
    cases fuel with
    | zero => rfl
    | succ m =>
      have hcnt1 : (loopStep f (initState k)).cnt = 0 := by
        simp only [loopStep, initState, improvedIndexes_init, Nat.zero_add]
        rw [if_pos (by simp only [List.length_range]; omega)]
      rw [runLoop_succ, hcnt1, if_neg (by omega)]
      cases hr : runLoop f m (loopStep f (initState k)) with
      | none => rfl
      | some s' =>
        have h5 := runLoop_some_fuel f m _ _ hr
        rw [hcnt1] at h5
        omega

theorem epoch_one_improves_all_witness :
    improvedIndexes (initLosses 2) [1, 2] = List.range 2 ∧
    ∀ fuel, fuel ≤ 5 → runLoop stagnantLosses fuel (initState 2) = none :=
  epoch_one_improves_all 2 [1, 2] stagnantLosses (by decide) (by decide) (by decide)

/-- C6: across one epoch of the loop, each member's recorded best validation
loss never increases: the entry is overwritten (with the new loss) exactly
when the member's new epoch validation loss is strictly below the recorded
value, and is left unchanged otherwise. -/
theorem val_losses_monotone (f : Nat → List ℚ) (s : LoopState) (i : Nat) (x y : Loss)
    (hx : (loopStep f s).val_losses[i]? = some x)
    (hy : s.val_losses[i]? = some y) :
    x ≤ y ∧
    (∀ nl : ℚ, (f (s.epoch + 1))[i]? = some nl → (nl : Loss) < y → x = nl) ∧
    (∀ nl : ℚ, (f (s.epoch + 1))[i]? = some nl → ¬ (nl : Loss) < y → x = y) ∧
    ((f (s.epoch + 1))[i]? = none → x = y) := by
  obtain ⟨hil, hyv⟩ := List.getElem?_eq_some_iff.mp hy
  have hx' : some x = some (match ((f (s.epoch + 1))[i]? : Option ℚ) with
      | some nl => if (nl : Loss) < y then (nl : Loss) else y
      | none => y) := by
    rw [← hx]
    simp only [loopStep, updateValLosses, List.getElem?_map, List.getElem?_enum,
      List.getElem?_eq_getElem (l := s.val_losses) hil, hyv, Option.map_some']
  obtain rfl := Option.some.inj hx'
  cases hnew : ((f (s.epoch + 1))[i]? : Option ℚ) with
  | none =>
    exact ⟨le_refl y, fun nl h => Option.noConfusion h,
      fun nl h => Option.noConfusion h, fun _ => rfl⟩
  | some nl =>
    by_cases hlt : (nl : Loss) < y
    · refine ⟨?_, fun nl' h _ => ?_, fun nl' h hn => ?_, fun h => Option.noConfusion h⟩
      · show (if (nl : Loss) < y then (nl : Loss) else y) ≤ y
        rw [if_pos hlt]
        exact le_of_lt hlt
      · obtain rfl := Option.some.inj h
        show (if (nl : Loss) < y then (nl : Loss) else y) = nl
        rw [if_pos hlt]
      · obtain rfl := Option.some.inj h
        exact absurd hlt hn
    · refine ⟨?_, fun nl' h hlt' => ?_, fun nl' h hn => ?_, fun h => Option.noConfusion h⟩
      · show (if (nl : Loss) < y then (nl : Loss) else y) ≤ y
        rw [if_neg hlt]
      · obtain rfl := Option.some.inj h
        exact absurd hlt' hlt
      · show (if (nl : Loss) < y then (nl : Loss) else y) = y
        rw [if_neg hlt]

/-- A constant loss oracle used to evaluate the loop on concrete inputs. -/
def constLosses : Nat → List ℚ := fun _ => [1, 5]

theorem val_losses_monotone_witness :
    (1 : Loss) ≤ ⊤ ∧
    (∀ nl : ℚ, (constLosses 1)[0]? = some nl → (nl : Loss) < ⊤ → (1 : Loss) = nl) ∧
    (∀ nl : ℚ, (constLosses 1)[0]? = some nl → ¬ (nl : Loss) < ⊤ → (1 : Loss) = ⊤) ∧
    ((constLosses 1)[0]? = none → (1 : Loss) = ⊤) :=
  val_losses_monotone constLosses ⟨[⊤, 2], 3, 0⟩ 0 1 ⊤ (by decide) (by decide)

/-! ## Embedding of the train/validation split
(src/benchmark/pretrain_dynamics.py, lines 72-78) -/

/-- Line 73: `val_size = min(int(data_size * 0.2) + 1, 1000)`.  The float
product is modelled as an exact rational; for a nonnegative value Python's
`int(...)` truncation is the floor. -/
def val_size (data_size : Nat) : Nat :=
  min (⌊(data_size : ℚ) * 0.2⌋₊ + 1) 1000

/-- Line 74: `train_size = data_size - val_size` (Python integers, so the
difference lives in `ℤ`). -/
def train_size (data_size : Nat) : Int :=
  (data_size : Int) - val_size data_size

/-- `torch.utils.data.random_split(range(data_size), (train_size, val_size))`
of lines 75-76.  Modelled from the spec: `random_split` is external library
code (torch); the specification describes it as partitioning via "a random
permutation seeded by the run's RNG state (partition indices drawn without
replacement, disjoint, covering the full buffer)", so the model takes the
random permutation of `range(data_size)` as the oracle `perm` and cuts it
into consecutive pieces of the requested lengths. -/
def randomSplit (perm : List Nat) (t v : Nat) : List Nat × List Nat :=
  (perm.take t, (perm.drop t).take v)

/-- C2: `val_size = min(floor(0.2 * N) + 1, 1000)`, the train and validation
sizes sum to `N`, and the two index sets of the split are disjoint,
duplicate-free, and together cover all `N` buffer indices. -/
theorem split_sizes_spec (N : Nat) (perm : List Nat)
    (hN : 1 ≤ N) (hperm : List.Perm perm (List.range N)) :
    val_size N = min (N / 5 + 1) 1000 ∧
    train_size N + val_size N = (N : Int) ∧
    ((randomSplit perm (train_size N).toNat (val_size N)).1 ++
      (randomSplit perm (train_size N).toNat (val_size N)).2).Perm (List.range N) ∧
    (randomSplit perm (train_size N).toNat (val_size N)).1.Nodup ∧
    (randomSplit perm (train_size N).toNat (val_size N)).2.Nodup ∧
    List.Disjoint (randomSplit perm (train_size N).toNat (val_size N)).1
      (randomSplit perm (train_size N).toNat (val_size N)).2 := by
  have hfloor : ⌊(N : ℚ) * 0.2⌋₊ = N / 5 := by
    rw [show (0.2 : ℚ) = 1 / 5 from by norm_num, mul_one_div,
      show (5 : ℚ) = ((5 : ℕ) : ℚ) from by norm_num,
      Nat.floor_div_nat, Nat.floor_natCast]
  have hval : val_size N = min (N / 5 + 1) 1000 := by
    unfold val_size
    rw [hfloor]
  have hvle : val_size N ≤ N := by
    rw [hval]
    omega
  have htn : (train_size N).toNat = N - val_size N := by
    unfold train_size
    omega
  have hplen : perm.length = N := by
    rw [hperm.length_eq, List.length_range]
  have hnd : perm.Nodup := hperm.nodup_iff.mpr (List.nodup_range N)
  have hcover : (randomSplit perm (train_size N).toNat (val_size N)).1 ++
      (randomSplit perm (train_size N).toNat (val_size N)).2 = perm := by
    have h2 : (perm.drop (train_size N).toNat).take (val_size N) =
        perm.drop (train_size N).toNat :=
      List.take_of_length_le (by rw [List.length_drop, hplen, htn]; omega)
    simp only [randomSplit]
    rw [h2, List.take_append_drop]
  refine ⟨hval, by unfold train_size; omega, ?_, ?_, ?_, ?_⟩
  · rw [hcover]
    exact hperm
  · exact (List.take_sublist _ _).nodup hnd
  · exact ((List.take_sublist _ _).trans (List.drop_sublist _ _)).nodup hnd
  · have := hcover ▸ hnd
    exact List.disjoint_of_nodup_append this

theorem split_sizes_spec_witness :
    val_size 7 = min (7 / 5 + 1) 1000 ∧
    train_size 7 + val_size 7 = (7 : Int) ∧
    ((randomSplit [3, 0, 6, 2, 5, 1, 4] (train_size 7).toNat (val_size 7)).1 ++
      (randomSplit [3, 0, 6, 2, 5, 1, 4] (train_size 7).toNat (val_size 7)).2).Perm
      (List.range 7) ∧
    (randomSplit [3, 0, 6, 2, 5, 1, 4] (train_size 7).toNat (val_size 7)).1.Nodup ∧
    (randomSplit [3, 0, 6, 2, 5, 1, 4] (train_size 7).toNat (val_size 7)).2.Nodup ∧
    List.Disjoint (randomSplit [3, 0, 6, 2, 5, 1, 4] (train_size 7).toNat (val_size 7)).1
      (randomSplit [3, 0, 6, 2, 5, 1, 4] (train_size 7).toNat (val_size 7)).2 :=
  split_sizes_spec 7 [3, 0, 6, 2, 5, 1, 4] (by decide) (by decide)

/-! ## Bootstrap sampling and mini-batching
(src/benchmark/pretrain_dynamics.py, lines 89-93) -/

/-- Line 89: `np.random.randint(train_n, size=[rows, cols])` — a
`rows × cols` matrix of draws with replacement from `range(bound)`; the
randomness is an explicit per-entry entropy oracle `rand`. -/
def npRandint (rand : Nat → Nat → Nat) (bound rows cols : Nat) : List (List Nat) :=
  (List.range rows).map fun r => (List.range cols).map fun c => rand r c % bound

/-- Lines 90-91: the mini-batch slices
`idxs[:, batch_num * batch_size : (batch_num + 1) * batch_size]` for
`batch_num in range(int(np.ceil(cols / batch_size)))`, for one ensemble
row. -/
def miniBatches (row : List Nat) (bs : Nat) : List (List Nat) :=
  (List.range ((row.length + bs - 1) / bs)).map fun bn => (row.drop (bn * bs)).take bs

/-- The ceiling batch count of a nonempty row splits off one batch. -/
theorem batch_count_pos (L bs : Nat) (hbs : 0 < bs) (hL : 0 < L) :
    (L + bs - 1) / bs = ((L - bs) + bs - 1) / bs + 1 := by
  by_cases h : L ≤ bs
  · rw [Nat.div_eq_of_lt_le (k := 1) (by omega) (by omega),
      Nat.div_eq_of_lt (by omega)]
  · rw [show L + bs - 1 = ((L - bs) + bs - 1) + bs from by omega,
      Nat.add_div_right _ hbs]

theorem miniBatches_nil (bs : Nat) (hbs : 0 < bs) : miniBatches [] bs = [] := by
  unfold miniBatches
  rw [List.length_nil, Nat.div_eq_of_lt (by omega), List.range_zero, List.map_nil]

/-- Unfolding of `miniBatches` on a nonempty row: the first `bs` entries form
the head batch and the rest is rebatched. -/
theorem miniBatches_cons (row : List Nat) (bs : Nat) (hbs : 0 < bs)
    (hrow : row ≠ []) :
    miniBatches row bs = row.take bs :: miniBatches (row.drop bs) bs := by
  unfold miniBatches
  have hlen : 0 < row.length := List.length_pos.mpr hrow
  rw [List.length_drop,
    show (row.length + bs - 1) / bs = ((row.length - bs) + bs - 1) / bs + 1 from
      batch_count_pos row.length bs hbs hlen,
    List.range_succ_eq_map, List.map_cons]
  refine congrArg₂ List.cons (by simp) ?_
  rw [List.map_map]
  apply List.map_congr_left
  intro bn _
  simp only [Function.comp_apply, List.drop_drop]
  simp only [Nat.succ_eq_add_one]
  ring_nf

/-- Partition properties of the mini-batch slicing: exactly
`ceil(len / bs)` batches which concatenate in order back to the row, all of
size `bs` except possibly the last, and none empty. -/
theorem miniBatches_spec (bs : Nat) (hbs : 0 < bs) :
    ∀ row : List Nat,
      (miniBatches row bs).length = (row.length + bs - 1) / bs ∧
      (miniBatches row bs).join = row ∧
      (∀ b ∈ (miniBatches row bs).dropLast, b.length = bs) ∧
      (∀ b ∈ miniBatches row bs, b ≠ [] ∧ b.length ≤ bs) := by
  have main : ∀ n, ∀ row : List Nat, row.length ≤ n →
      (miniBatches row bs).length = (row.length + bs - 1) / bs ∧
      (miniBatches row bs).join = row ∧
      (∀ b ∈ (miniBatches row bs).dropLast, b.length = bs) ∧
      (∀ b ∈ miniBatches row bs, b ≠ [] ∧ b.length ≤ bs) := by
    intro n
    induction n with
    | zero =>
      intro row hr
      obtain rfl : row = [] := List.length_eq_zero.mp (by omega)
      rw [miniBatches_nil bs hbs]
      exact ⟨by simp only [List.length_nil]; rw [Nat.div_eq_of_lt (by omega)], rfl,
        by intro b hb; exact absurd hb (List.not_mem_nil b),
        by intro b hb; exact absurd hb (List.not_mem_nil b)⟩
    | succ n ih =>
      intro row hr
      by_cases hrow : row = []
      · subst hrow
        rw [miniBatches_nil bs hbs]
        exact ⟨by simp only [List.length_nil]; rw [Nat.div_eq_of_lt (by omega)], rfl,
          by intro b hb; exact absurd hb (List.not_mem_nil b),
          by intro b hb; exact absurd hb (List.not_mem_nil b)⟩
      · have hlen : 0 < row.length := List.length_pos.mpr hrow
        have hdlen : (row.drop bs).length = row.length - bs := List.length_drop _ _
        obtain ⟨ih1, ih2, ih3, ih4⟩ := ih (row.drop bs) (by omega)
        rw [miniBatches_cons row bs hbs hrow]
        refine ⟨?_, ?_, ?_, ?_⟩
        · rw [List.length_cons, ih1, hdlen,
            batch_count_pos row.length bs hbs hlen]
        · show row.take bs ++ (miniBatches (row.drop bs) bs).join = row
          rw [ih2, List.take_append_drop]
        · intro b hb
          by_cases hrest : miniBatches (row.drop bs) bs = []
          · rw [hrest] at hb
            exact absurd hb (List.not_mem_nil b)
          · rw [List.dropLast_cons_of_ne_nil hrest] at hb
            rcases List.mem_cons.mp hb with rfl | hb'
            · have hbig : bs < row.length := by
                by_contra hc
                apply hrest
                rw [show row.drop bs = [] from
                  List.drop_eq_nil_of_le (by omega)]
                exact miniBatches_nil bs hbs
              rw [List.length_take]
              omega
            · exact ih3 b hb'
        · intro b hb
          rcases List.mem_cons.mp hb with rfl | hb'
          · constructor
            · intro hemp
              have := congrArg List.length hemp
              rw [List.length_take, List.length_nil] at this
              omega
            · rw [List.length_take]
              omega
          · exact ih4 b hb'
  exact fun row => main row.length row (le_refl _)

/-- C7: each of the `ensemble_size` members draws a bootstrap sample of
`train_n` indices from the `train_n` train-set row indices (sampling with
replacement: entries are unconstrained draws below `train_n`, supplied by
independent entropy per member and position), and each member's resampled
index sequence is cut in order into exactly `ceil(train_n / batch_size)`
mini-batches of size `batch_size`, only the last possibly smaller (and never
empty). -/
theorem bootstrap_batches (rand : Nat → Nat → Nat) (ensemble_size train_n bs : Nat)
    (htr : 0 < train_n) (hbs : 0 < bs) :
    (npRandint rand train_n ensemble_size train_n).length = ensemble_size ∧
    (∀ row ∈ npRandint rand train_n ensemble_size train_n,
      row.length = train_n ∧ ∀ i ∈ row, i < train_n) ∧
    (∀ row ∈ npRandint rand train_n ensemble_size train_n,
      (miniBatches row bs).length = (train_n + bs - 1) / bs ∧
      (miniBatches row bs).join = row ∧
      (∀ b ∈ (miniBatches row bs).dropLast, b.length = bs) ∧
      (∀ b ∈ miniBatches row bs, b ≠ [] ∧ b.length ≤ bs)) := by
  have hshape : ∀ row ∈ npRandint rand train_n ensemble_size train_n,
      row.length = train_n ∧ ∀ i ∈ row, i < train_n := by
    intro row hrow
    unfold npRandint at hrow
    obtain ⟨r, hr, rfl⟩ := List.mem_map.mp hrow
    refine ⟨by simp, ?_⟩
    intro i hi
    obtain ⟨c, hc, rfl⟩ := List.mem_map.mp hi
    exact Nat.mod_lt _ htr
  refine ⟨by simp [npRandint], hshape, fun row hrow => ?_⟩
  obtain ⟨hrl, -⟩ := hshape row hrow
  obtain ⟨m1, m2, m3, m4⟩ := miniBatches_spec bs hbs row
  exact ⟨by rw [m1, hrl], m2, m3, m4⟩

theorem bootstrap_batches_witness :
    (npRandint (fun r c => r + 2 * c) 5 2 5).length = 2 ∧
    (∀ row ∈ npRandint (fun r c => r + 2 * c) 5 2 5,
      row.length = 5 ∧ ∀ i ∈ row, i < 5) ∧
    (∀ row ∈ npRandint (fun r c => r + 2 * c) 5 2 5,
      (miniBatches row 2).length = (5 + 2 - 1) / 2 ∧
      (miniBatches row 2).join = row ∧
      (∀ b ∈ (miniBatches row 2).dropLast, b.length = 2) ∧
      (∀ b ∈ miniBatches row 2, b ≠ [] ∧ b.length ≤ 2)) :=
  bootstrap_batches (fun r c => r + 2 * c) 2 5 2 (by decide) (by decide)

/-! ## Embedding of `training_dynamics`
(src/benchmark/pretrain_dynamics.py, lines 43-122) -/

/-- The configuration mapping consumed by `training_dynamics`. -/
structure Config where
  task : String
  level : String
  amount : Int
  seed : Int
  hidden_units : Nat
  nb_layers : Nat
  ensemble_size : Nat
  ensemble_selected : Nat
  learning_rate : ℚ
  optim_wd : ℚ
  batch_size : Nat
  dynamics_path : String

/-- Observable side effects of a `training_dynamics` run on its external
collaborators, in program order: seeding the RNG (line 51), invoking the
dataset loader (line 53), constructing the ensemble model (lines 67-68), and
persisting the artifact (line 117). -/
inductive Effect where
  | seedRNG (seed : Int)
  | loadData (task level : String) (amount : Int)
  | buildModel (obs_dim act_dim hidden layers members : Nat)
  | saveModel (path : String)
deriving DecidableEq, Repr

/-- The run's external collaborators as oracles: the loader's buffer shape,
the split permutation drawn by `random_split`, the per-epoch evaluation
losses, and the final evaluation of the selected subset. -/
structure Oracles where
  buffer_size : Nat
  obs_dim : Nat
  act_dim : Nat
  perm : List Nat
  evalLosses : Nat → List ℚ
  finalEval : List Nat → List ℚ

/-- The result mapping `{performance, path}` returned on lines 45-48 and
119-122. -/
structure RunResult where
  performance : List ℚ
  path : String
deriving DecidableEq, Repr

/-- Embedding of `training_dynamics(config)` (lines 43-122): the returned
result (`none` when the epoch loop is still running after `fuel` iterations
or the final selection fails) paired with the trace of effects on the
external collaborators.  Lines 44-48 short-circuit the `('finance', 10000)`
configuration before any effect happens. -/
def training_dynamics (cfg : Config) (o : Oracles) (fuel : Nat) :
    Option RunResult × List Effect :=
  if cfg.task = "finance" ∧ cfg.amount = 10000 then
    (some { performance := [], path := "" }, [])
  else
    let effects := [Effect.seedRNG cfg.seed,
                    Effect.loadData cfg.task cfg.level cfg.amount,
                    Effect.buildModel o.obs_dim o.act_dim cfg.hidden_units
                      cfg.nb_layers cfg.ensemble_size]
    let v := val_size o.buffer_size
    let t := train_size o.buffer_size
    let splits := randomSplit o.perm t.toNat v
    match runLoop o.evalLosses fuel (initState cfg.ensemble_size) with
    | none => (none, effects)
    | some s =>
      match _select_best_indexes s.val_losses cfg.ensemble_selected with
      | none => (none, effects)
      | some sel =>
        let path := cfg.dynamics_path ++ "/" ++ cfg.task ++ "-" ++ cfg.level ++
          "-" ++ toString cfg.amount ++ "-" ++ toString cfg.seed ++ ".pt"
        (some { performance := o.finalEval sel, path := path },
          effects ++ [Effect.saveModel path])

/-- C4: exactly the configuration `task = 'finance'` with `amount = 10000`
short-circuits `training_dynamics`: it immediately returns
`{performance: [], path: ''}` with an empty effect trace (no dataset loading,
no RNG seeding, no model construction); every other configuration produces a
nonempty effect trace. -/
theorem finance_short_circuit (cfg : Config) (o : Oracles) (fuel : Nat) :
    ((cfg.task = "finance" ∧ cfg.amount = 10000) ↔
      (training_dynamics cfg o fuel).2 = []) ∧
    ((cfg.task = "finance" ∧ cfg.amount = 10000) →
      (training_dynamics cfg o fuel).1 =
        some { performance := [], path := "" }) := by
  by_cases h : cfg.task = "finance" ∧ cfg.amount = 10000
  · unfold training_dynamics
    rw [if_pos h]
    exact ⟨⟨fun _ => rfl, fun _ => h⟩, fun _ => rfl⟩
  · refine ⟨⟨fun h' => absurd h' h, fun heff => ?_⟩, fun h' => absurd h' h⟩
    have hne : (training_dynamics cfg o fuel).2 ≠ [] := by
      unfold training_dynamics
      rw [if_neg h]
      cases hr : runLoop o.evalLosses fuel (initState cfg.ensemble_size) with
      | none => simp
      | some s =>
        cases hsel : _select_best_indexes s.val_losses cfg.ensemble_selected with
        | none => simp [hsel]
        | some sel => simp [hsel]
    exact absurd heff hne

/-- The short-circuit configuration of lines 44-48, with the sweep's default
hyperparameters (lines 133-146). -/
def financeConfig : Config where
  task := "finance"
  level := "high"
  amount := 10000
  seed := 7
  hidden_units := 1024
  nb_layers := 4
  ensemble_size := 7
  ensemble_selected := 5
  learning_rate := 1 / 1000
  optim_wd := 75 / 1000000
  batch_size := 256
  dynamics_path := "dynamics"

/-- A small concrete oracle bundle for evaluating runs. -/
def sampleOracles : Oracles where
  buffer_size := 7
  obs_dim := 3
  act_dim := 2
  perm := [3, 0, 6, 2, 5, 1, 4]
  evalLosses := stagnantLosses
  finalEval := fun _ => [1, 1]

theorem finance_short_circuit_witness :
    ((financeConfig.task = "finance" ∧ financeConfig.amount = 10000) ↔
      (training_dynamics financeConfig sampleOracles 6).2 = []) ∧
    ((financeConfig.task = "finance" ∧ financeConfig.amount = 10000) →
      (training_dynamics financeConfig sampleOracles 6).1 =
        some { performance := [], path := "" }) :=
  finance_short_circuit financeConfig sampleOracles 6

end NeoRL
